import Mathlib

/-!
Verification of the multinomial Naive Bayes classifier implemented in
src/naive_bayes.py. Parameter estimation (priors, smoothed conditional
probabilities) is modelled exactly over the rationals; the log-posterior and
softmax computations are modelled over the reals. Python dictionaries are
modelled as insertion-ordered association lists, and the aliasing of tensor
rows produced by `class_word_counts[label] += bow` (an in-place addition on a
view of a row of `features`) is modelled explicitly by threading the contents
of the features matrix through the accumulation loop.
-/

/-- Elementwise addition of two rows, modelling torch tensor addition of
equal-shape 1-D tensors. -/
def vecAdd (a b : List ℚ) : List ℚ := List.zipWith (fun x y => x + y) a b

/-- Lookup in an insertion-ordered association list, modelling Python dict
access: the value of the first entry with the given key. -/
def lookupA {β : Type} : List (ℕ × β) → ℕ → Option β
  | [], _ => none
  | (k, v) :: rest, c => if k = c then some v else lookupA rest c

/-- Models torch.bincount on a 1-D nonnegative integer tensor: entry i counts
the occurrences of i, for every i up to the largest value present; the empty
tensor gives the empty result. -/
def bincount (labels : List ℕ) : List ℕ :=
  match labels with
  | [] => []
  | _ :: _ => (List.range (labels.foldr max 0 + 1)).map (fun i => labels.count i)

/-- Models torch.unique on a 1-D nonnegative integer tensor: the distinct
values present, in ascending order. -/
def torchUnique (labels : List ℕ) : List ℕ :=
  (List.range (labels.foldr max 0 + 1)).filter (fun i => decide (i ∈ labels))

/-- One iteration of the accumulation loop of
`estimate_conditional_probabilities` (source lines 76-83). `bow` is the current
contents of row i. When the label was seen before, the stored accumulator is a
view aliasing the row of `features` where that label first occurred, so
`class_word_counts[label] += bow` mutates that row in place; the association
list therefore stores, per label, the index of its aliased accumulator row,
and the first component of the state is the current contents of `features`. -/
def cwcStep (labels : List ℕ) (st : List (List ℚ) × List (ℕ × ℕ)) (i : ℕ) :
    List (List ℚ) × List (ℕ × ℕ) :=
  let bow := st.1.getD i []
  let label := labels.getD i 0
  match lookupA st.2 label with
  | some r => (st.1.set r (vecAdd (st.1.getD r []) bow), st.2)
  | none => (st.1, st.2 ++ [(label, i)])

/-- The loop state after the first k iterations: current contents of the
features tensor, and the accumulator-row index for each label seen so far. -/
def cwcState (features : List (List ℚ)) (labels : List ℕ) : ℕ → List (List ℚ) × List (ℕ × ℕ)
  | 0 => (features, [])
  | k + 1 => cwcStep labels (cwcState features labels k) k

/-- `estimate_conditional_probabilities` (source lines 59-91): accumulates
per-class word counts and applies Laplace smoothing
`(word_counts + delta) / (total_words + delta * vocab_size)`. The result also
carries the final contents of the caller's `features` tensor, which the
accumulation loop mutates through the aliased accumulator rows. -/
def estimate_conditional_probabilities (features : List (List ℚ)) (labels : List ℕ)
    (delta : ℚ) (vocab_size : ℕ) : List (ℕ × List ℚ) × List (List ℚ) :=
  let st := cwcState features labels features.length
  (st.2.map (fun p =>
      (p.1, (st.1.getD p.2 []).map
        (fun w => (w + delta) / ((st.1.getD p.2 []).sum + delta * (vocab_size : ℚ))))),
   st.1)

/-- The classifier state: three fields that are `None` until `fit` is called
(source lines 14-20). -/
structure NaiveBayes where
  class_priors : Option (List (ℕ × ℚ))
  conditional_probabilities : Option (List (ℕ × List ℚ))
  vocab_size : Option ℕ

/-- The freshly constructed, untrained classifier. -/
def NaiveBayes.init : NaiveBayes := ⟨none, none, none⟩

/-- `fit` (source lines 22-37): priors from `torch.bincount` over the labels
divided by the number of examples (a key for every id from 0 to the maximum
label), vocabulary size from the column count, then the smoothed conditional
probabilities. The second component is the final contents of the caller's
`features` tensor after the aliased in-place additions. -/
def NaiveBayes.fit (features : List (List ℚ)) (labels : List ℕ) (delta : ℚ) :
    NaiveBayes × List (List ℚ) :=
  let num_examples := labels.length
  let class_counts := bincount labels
  let class_priors := (List.range class_counts.length).map
    (fun i => (i, (class_counts.getD i 0 : ℚ) / (num_examples : ℚ)))
  let vocab_size := (features.headD []).length
  let ec := estimate_conditional_probabilities features labels delta vocab_size
  (⟨some class_priors, some ec.1, some vocab_size⟩, ec.2)

/-- `estimate_class_priors` (source lines 39-57): a key for each distinct label
(ascending, from torch.unique), mapped to its relative frequency. `fit` does
not call this method; it builds its priors from `torch.bincount` instead. -/
def NaiveBayes.estimate_class_priors (labels : List ℕ) : List (ℕ × ℚ) :=
  (torchUnique labels).map (fun c => (c, (labels.count c : ℚ) / (labels.length : ℚ)))

/-- The loop of `estimate_class_posteriors` (source lines 111-117): for each
class in the priors dict, in insertion order, writes
`log(prior) + Σ_j feature[j] * log(conditional[j])` at index `class_label` of
the output tensor (for models produced by `fit` that index is always in
range); a class missing from the conditional dict raises a `KeyError`. -/
noncomputable def posteriorsLoop (conds : List (ℕ × List ℚ)) (feature : List ℚ) :
    List (ℕ × ℚ) → List ℝ → Except String (List ℝ)
  | [], acc => Except.ok acc
  | (c, p) :: rest, acc =>
    match lookupA conds c with
    | none => Except.error "KeyError"
    | some condP =>
      posteriorsLoop conds feature rest
        (acc.set c (Real.log (p : ℝ) +
          (List.zipWith (fun f x => (f : ℝ) * Real.log ((x : ℚ) : ℝ)) feature condP).sum))

/-- `estimate_class_posteriors` (source lines 93-120): raises when either the
conditional probabilities or the priors are still `None`, otherwise fills a
zero tensor of length `len(class_priors)` through `posteriorsLoop`. -/
noncomputable def NaiveBayes.estimate_class_posteriors (m : NaiveBayes) (feature : List ℚ) :
    Except String (List ℝ) :=
  match m.conditional_probabilities, m.class_priors with
  | some conds, some priors =>
      posteriorsLoop conds feature priors (List.replicate priors.length 0)
  | _, _ => Except.error "Model must be trained before estimating class posteriors."

/-- Python truthiness of an optional dict: `None` and the empty dict are falsy. -/
def truthy {β : Type} : Option (List β) → Bool
  | none => false
  | some l => !l.isEmpty

/-- The fold underlying torch.argmax: carries (best index, best value) and
replaces the best only on a strictly larger value, so among equal maxima the
first index wins. -/
noncomputable def argmaxFrom : List ℝ → ℕ → ℕ × ℝ → ℕ × ℝ
  | [], _, best => best
  | x :: xs, i, best => argmaxFrom xs (i + 1) (if best.2 < x then (i, x) else best)

/-- Models torch.argmax on a 1-D tensor: the index of the first maximal entry. -/
noncomputable def argmaxIdx : List ℝ → ℕ
  | [] => 0
  | x :: xs => (argmaxFrom xs 1 (0, x)).1

/-- Models torch.softmax on a 1-D tensor. -/
noncomputable def softmax (l : List ℝ) : List ℝ :=
  l.map (fun x => Real.exp x / (l.map Real.exp).sum)

/-- `predict` (source lines 122-146): raises on a falsy priors or conditionals
field, otherwise returns the argmax of the log-posteriors. -/
noncomputable def NaiveBayes.predict (m : NaiveBayes) (feature : List ℚ) : Except String ℕ :=
  if !truthy m.class_priors || !truthy m.conditional_probabilities then
    Except.error "Model not trained. Please call the train method first."
  else
    match m.estimate_class_posteriors feature with
    | Except.error e => Except.error e
    | Except.ok lp => Except.ok (argmaxIdx lp)

/-- `predict_proba` (source lines 149-172): raises on a falsy priors or
conditionals field, otherwise applies softmax to the log-posteriors. -/
noncomputable def NaiveBayes.predict_proba (m : NaiveBayes) (feature : List ℚ) :
    Except String (List ℝ) :=
  if !truthy m.class_priors || !truthy m.conditional_probabilities then
    Except.error "Model not trained. Please call the train method first."
  else
    match m.estimate_class_posteriors feature with
    | Except.error e => Except.error e
    | Except.ok lp => Except.ok (softmax lp)

/-- The rows of the feature matrix whose label is c, among the first k
examples, in order. -/
def classRows (features : List (List ℚ)) (labels : List ℕ) (c : ℕ) (k : ℕ) : List (List ℚ) :=
  ((List.range k).filter (fun j => decide (labels.getD j 0 = c))).map (fun j => features.getD j [])

/-- Elementwise sum of a list of rows accumulated left to right; the empty sum
is the empty row. -/
def sumRowsL : List (List ℚ) → List ℚ
  | [] => []
  | v :: rest => rest.foldl vecAdd v

/-- W_c of the specification: the elementwise sum of the feature vectors of the
examples labelled c. -/
def Wc (features : List (List ℚ)) (labels : List ℕ) (c : ℕ) : List ℚ :=
  sumRowsL (classRows features labels c features.length)

/-- Invariant of the accumulation loop of `estimate_conditional_probabilities`
after k iterations: lengths are preserved; each recorded accumulator row index
is the first occurrence of its label; the recorded labels are exactly the
labels of the first k examples; each accumulator row holds the elementwise sum
of the rows of its class seen so far; and every other row of the features
tensor still holds its original contents. -/
def CwcInv (features : List (List ℚ)) (labels : List ℕ) (k : ℕ)
    (st : List (List ℚ) × List (ℕ × ℕ)) : Prop :=
  st.1.length = features.length ∧
  (∀ p ∈ st.2, p.2 < k ∧ labels.getD p.2 0 = p.1 ∧ ∀ j < p.2, labels.getD j 0 ≠ p.1) ∧
  (∀ c, (∃ p ∈ st.2, p.1 = c) ↔ ∃ j, j < k ∧ labels.getD j 0 = c) ∧
  (∀ p ∈ st.2, st.1.getD p.2 [] = sumRowsL (classRows features labels p.1 k)) ∧
  (∀ r, (∀ p ∈ st.2, p.2 ≠ r) → st.1.getD r [] = features.getD r [])

/-- The concrete training scenario of the specification. -/
def features0 : List (List ℚ) := [[1, 0, 1], [0, 1, 1], [1, 1, 0]]

/-- Labels of the concrete training scenario. -/
def labels0 : List ℕ := [0, 0, 1]

/-- The model fitted on the concrete scenario with delta = 1. -/
def model0 : NaiveBayes := (NaiveBayes.fit features0 labels0 1).1

/-- The query feature vector of the concrete scenario. -/
def feat0 : List ℚ := [1, 1, 0]

/-! ### List utilities -/

theorem getD_set_self {α : Type} (l : List α) (i : ℕ) (v d : α) (h : i < l.length) :
    (l.set i v).getD i d = v := by
  simp [List.getD_eq_getElem?_getD, List.getElem?_set_self h]

theorem getD_set_ne {α : Type} (l : List α) (i j : ℕ) (v d : α) (h : i ≠ j) :
    (l.set i v).getD j d = l.getD j d := by
  simp [List.getD_eq_getElem?_getD, List.getElem?_set_ne h]

theorem getD_mem {α : Type} (l : List α) (j : ℕ) (d : α) (h : j < l.length) :
    l.getD j d ∈ l := by
  rw [List.getD_eq_getElem?_getD, List.getElem?_eq_getElem h]
  exact List.getElem_mem h

theorem mem_iff_getD {c : ℕ} : ∀ (l : List ℕ), c ∈ l ↔ ∃ j, j < l.length ∧ l.getD j 0 = c := by
  intro l
  constructor
  · intro h
    obtain ⟨n, hn, he⟩ := List.mem_iff_getElem.mp h
    exact ⟨n, hn, by rw [List.getD_eq_getElem?_getD, List.getElem?_eq_getElem hn]; exact he⟩
  · rintro ⟨j, hj, he⟩
    rw [List.getD_eq_getElem?_getD, List.getElem?_eq_getElem hj] at he
    exact he ▸ List.getElem_mem hj

theorem getD_map_range {β : Type} (K : ℕ) (f : ℕ → β) (c : ℕ) (d : β) (h : c < K) :
    ((List.range K).map f).getD c d = f c := by
  rw [List.getD_eq_getElem?_getD, List.getElem?_map, List.getElem?_range h]
  rfl

theorem list_eq_pair (l : List ℝ) (h : l.length = 2) : l = [l.getD 0 0, l.getD 1 0] := by
  match l, h with
  | [a, b], _ => rfl

theorem le_foldr_max (l : List ℕ) : ∀ x ∈ l, x ≤ l.foldr max 0 := by
  induction l with
  | nil => intro x hx; cases hx
  | cons a t ih =>
    intro x hx
    rcases List.mem_cons.mp hx with h | h
    · subst h; exact le_max_left _ _
    · exact le_trans (ih x h) (le_max_right _ _)

/-! ### Association-list lookup lemmas -/

theorem lookupA_some_mem {β : Type} {A : List (ℕ × β)} {c : ℕ} {v : β}
    (h : lookupA A c = some v) : (c, v) ∈ A := by
  induction A with
  | nil => simp [lookupA] at h
  | cons q t ih =>
    obtain ⟨k, w⟩ := q
    by_cases hk : k = c
    · subst hk
      simp [lookupA] at h
      exact h ▸ List.mem_cons_self _ _
    · rw [lookupA, if_neg hk] at h
      exact List.mem_cons_of_mem _ (ih h)

theorem lookupA_none_not_mem {β : Type} {A : List (ℕ × β)} {c : ℕ}
    (h : lookupA A c = none) : ∀ p ∈ A, p.1 ≠ c := by
  induction A with
  | nil => intro p hp; cases hp
  | cons q t ih =>
    intro p hp
    by_cases hk : q.1 = c
    · rw [lookupA, if_pos hk] at h
      cases h
    · rw [lookupA, if_neg hk] at h
      rcases List.mem_cons.mp hp with h1 | h1
      · subst h1; exact hk
      · exact ih h p h1

theorem lookupA_append {β : Type} (A B : List (ℕ × β)) (c : ℕ) :
    lookupA (A ++ B) c =
      match lookupA A c with
      | some v => some v
      | none => lookupA B c := by
  induction A with
  | nil => simp [lookupA]
  | cons q t ih =>
    by_cases hk : q.1 = c
    · simp only [List.cons_append, lookupA, if_pos hk]
    · simp only [List.cons_append, lookupA, if_neg hk, List.append_eq, ih]

theorem lookupA_map_range {β : Type} (K : ℕ) (g : ℕ → β) (c : ℕ) :
    lookupA ((List.range K).map (fun i => (i, g i))) c =
      if c < K then some (g c) else none := by
  induction K with
  | zero => simp [lookupA]
  | succ K ih =>
    rw [List.range_succ, List.map_append, lookupA_append, ih]
    by_cases h : c < K
    · rw [if_pos h, if_pos (Nat.lt_succ_of_lt h)]
    · rw [if_neg h]
      by_cases h2 : K = c
      · subst h2
        simp [lookupA]
      · simp only [List.map_cons, List.map_nil, lookupA, if_neg h2]
        rw [if_neg (by omega)]

/-! ### Counting lemmas for the priors -/

theorem sum_map_add_pointwise (L : List ℕ) (f g : ℕ → ℕ) :
    (L.map (fun i => f i + g i)).sum = (L.map f).sum + (L.map g).sum := by
  induction L with
  | nil => rfl
  | cons a t ih =>
    simp only [List.map_cons, List.sum_cons, ih]
    omega

theorem sum_indicator_range (m a : ℕ) :
    ((List.range m).map (fun i => if a == i then 1 else 0)).sum = if a < m then 1 else 0 := by
  induction m with
  | zero => simp
  | succ m ih =>
    rw [List.range_succ, List.map_append, List.sum_append, ih]
    by_cases h2 : a = m
    · subst h2
      rw [if_neg (lt_irrefl a), if_pos (Nat.lt_succ_self a)]
      simp
    · have hm : (a == m) = false := beq_eq_false_iff_ne.mpr h2
      by_cases h : a < m
      · rw [if_pos h, if_pos (Nat.lt_succ_of_lt h)]
        simp [h2]
      · rw [if_neg h, if_neg (show ¬a < m + 1 by omega)]
        simp [h2]

theorem sum_counts (labels : List ℕ) (m : ℕ) (h : ∀ x ∈ labels, x < m) :
    ((List.range m).map (fun i => labels.count i)).sum = labels.length := by
  induction labels with
  | nil => simp
  | cons a t ih =>
    have ha : a < m := h a (List.mem_cons_self a t)
    have ht : ∀ x ∈ t, x < m := fun x hx => h x (List.mem_cons_of_mem a hx)
    rw [List.map_congr_left (fun i _ => List.count_cons i a t),
      sum_map_add_pointwise, ih ht, sum_indicator_range, if_pos ha, List.length_cons]

theorem bincount_length (labels : List ℕ) (h : labels ≠ []) :
    (bincount labels).length = labels.foldr max 0 + 1 := by
  cases labels with
  | nil => exact absurd rfl h
  | cons a t => simp [bincount]

theorem bincount_getD (labels : List ℕ) (c : ℕ) (h : c < (bincount labels).length) :
    (bincount labels).getD c 0 = labels.count c := by
  cases labels with
  | nil => simp [bincount] at h
  | cons a t =>
    show ((List.range ((a :: t).foldr max 0 + 1)).map (fun i => (a :: t).count i)).getD c 0 = _
    refine getD_map_range _ _ _ _ ?_
    have := bincount_length (a :: t) (by simp)
    omega

theorem mem_lt_bincount_length (labels : List ℕ) (c : ℕ) (hc : c ∈ labels) :
    c < (bincount labels).length := by
  have hne : labels ≠ [] := List.ne_nil_of_mem hc
  rw [bincount_length labels hne]
  exact Nat.lt_succ_of_le (le_foldr_max labels c hc)

/-! ### The priors stored by fit -/

theorem fit_class_priors_eq (features : List (List ℚ)) (labels : List ℕ) (delta : ℚ) :
    (NaiveBayes.fit features labels delta).1.class_priors =
      some ((List.range (bincount labels).length).map
        (fun i => (i, ((bincount labels).getD i 0 : ℚ) / (labels.length : ℚ)))) := rfl

theorem fit_priors_lookup (features : List (List ℚ)) (labels : List ℕ) (delta : ℚ) (c : ℕ) :
    lookupA ((NaiveBayes.fit features labels delta).1.class_priors.getD []) c =
      if c < (bincount labels).length
      then some (((bincount labels).getD c 0 : ℚ) / (labels.length : ℚ)) else none := by
  rw [fit_class_priors_eq, Option.getD_some]
  exact lookupA_map_range _ _ _

theorem sum_map_div {F : Type} [DivisionRing F] (l : List F) (c : F) :
    (l.map (fun x => x / c)).sum = l.sum / c := by
  induction l with
  | nil => simp
  | cons a t ih => simp [ih, add_div]

theorem fit_priors_sum (features : List (List ℚ)) (labels : List ℕ) (delta : ℚ)
    (hne : labels ≠ []) :
    (((NaiveBayes.fit features labels delta).1.class_priors.getD []).map (fun p => p.2)).sum
      = 1 := by
  rw [fit_class_priors_eq, Option.getD_some, List.map_map]
  have h1 : ((fun p : ℕ × ℚ => p.2) ∘
      fun i => (i, ((bincount labels).getD i 0 : ℚ) / (labels.length : ℚ)))
      = fun i => ((bincount labels).getD i 0 : ℚ) / (labels.length : ℚ) := rfl
  rw [h1,
    List.map_congr_left (fun i hi => by
      rw [bincount_getD labels i (List.mem_range.mp hi)]),
    show (fun i => ((labels.count i : ℚ)) / (labels.length : ℚ))
        = (fun x : ℚ => x / (labels.length : ℚ)) ∘ (fun i => ((labels.count i : ℚ))) from rfl,
    ← List.map_map, sum_map_div,
    show (fun i => ((labels.count i : ℚ))) = (fun n : ℕ => (n : ℚ)) ∘ (fun i => labels.count i)
      from rfl,
    ← List.map_map, ← Nat.cast_list_sum]
  rw [bincount_length labels hne,
    sum_counts labels _ (fun x hx => Nat.lt_succ_of_le (le_foldr_max labels x hx))]
  have hlen : (labels.length : ℚ) ≠ 0 :=
    Nat.cast_ne_zero.mpr (Nat.pos_iff_ne_zero.mp (List.length_pos.mpr hne))
  exact div_self hlen

/-! ### Rows of one class and their sums -/

theorem classRows_succ (features : List (List ℚ)) (labels : List ℕ) (c k : ℕ) :
    classRows features labels c (k + 1) =
      if labels.getD k 0 = c
      then classRows features labels c k ++ [features.getD k []]
      else classRows features labels c k := by
  simp only [classRows, List.range_succ, List.filter_append, List.map_append]
  by_cases h : labels.getD k 0 = c
  · rw [if_pos h]
    congr 1
    rw [List.filter_singleton, decide_eq_true h, cond_true]
    rfl
  · rw [if_neg h, List.filter_singleton, decide_eq_false h, cond_false,
      List.map_nil, List.append_nil]

theorem classRows_nonempty (features : List (List ℚ)) (labels : List ℕ) (c k : ℕ)
    (h : ∃ j, j < k ∧ labels.getD j 0 = c) :
    classRows features labels c k ≠ [] := by
  obtain ⟨j, hj, he⟩ := h
  have hmem : j ∈ (List.range k).filter (fun j => decide (labels.getD j 0 = c)) :=
    List.mem_filter.mpr ⟨List.mem_range.mpr hj, decide_eq_true he⟩
  intro hnil
  unfold classRows at hnil
  rw [List.map_eq_nil_iff] at hnil
  rw [hnil] at hmem
  cases hmem

theorem classRows_nil (features : List (List ℚ)) (labels : List ℕ) (c k : ℕ)
    (h : ∀ j, j < k → labels.getD j 0 ≠ c) :
    classRows features labels c k = [] := by
  unfold classRows
  rw [List.filter_eq_nil_iff.mpr (fun a ha => by
    simp only [decide_eq_true_eq]
    exact h a (List.mem_range.mp ha)), List.map_nil]

theorem sumRowsL_singleton (v : List ℚ) : sumRowsL [v] = v := rfl

theorem sumRowsL_append_singleton (l : List (List ℚ)) (w : List ℚ) (h : l ≠ []) :
    sumRowsL (l ++ [w]) = vecAdd (sumRowsL l) w := by
  cases l with
  | nil => exact absurd rfl h
  | cons v t =>
    show ((t ++ [w]).foldl vecAdd v) = vecAdd (t.foldl vecAdd v) w
    rw [List.foldl_append]
    rfl

/-! ### First-occurrence uniqueness and lookups -/

theorem firstocc_unique {labels : List ℕ} {A : List (ℕ × ℕ)}
    (h2 : ∀ p ∈ A, labels.getD p.2 0 = p.1 ∧ ∀ j < p.2, labels.getD j 0 ≠ p.1) :
    ∀ p ∈ A, ∀ q ∈ A, p.1 = q.1 → p = q := by
  intro p hp q hq he
  obtain ⟨hp1, hp2⟩ := h2 p hp
  obtain ⟨hq1, hq2⟩ := h2 q hq
  have h22 : p.2 = q.2 := by
    rcases Nat.lt_trichotomy p.2 q.2 with h | h | h
    · exact absurd (hp1.trans he) (hq2 p.2 h)
    · exact h
    · exact absurd (hq1.trans he.symm) (hp2 q.2 h)
  exact Prod.ext he h22

theorem lookupA_of_mem_unique {β : Type} {A : List (ℕ × β)}
    (huniq : ∀ p ∈ A, ∀ q ∈ A, p.1 = q.1 → p = q) {c : ℕ} {v : β} (hm : (c, v) ∈ A) :
    lookupA A c = some v := by
  induction A with
  | nil => cases hm
  | cons q t ih =>
    by_cases hk : q.1 = c
    · rw [show lookupA (q :: t) c = if q.1 = c then some q.2 else lookupA t c from rfl,
        if_pos hk]
      have hq : q = (c, v) :=
        huniq q (List.mem_cons_self q t) (c, v) hm (by rw [hk])
      rw [hq]
    · rw [show lookupA (q :: t) c = if q.1 = c then some q.2 else lookupA t c from rfl,
        if_neg hk]
      have hmt : (c, v) ∈ t := by
        rcases List.mem_cons.mp hm with h | h
        · rw [← h] at hk
          exact absurd rfl hk
        · exact h
      exact ih (fun p hp q2 hq2 =>
        huniq p (List.mem_cons_of_mem _ hp) q2 (List.mem_cons_of_mem _ hq2)) hmt

theorem lookupA_map_of_mem_unique {β : Type} (g : ℕ × ℕ → β) {A : List (ℕ × ℕ)}
    (huniq : ∀ p ∈ A, ∀ q ∈ A, p.1 = q.1 → p = q) {c r : ℕ} (hm : (c, r) ∈ A) :
    lookupA (A.map (fun p => (p.1, g p))) c = some (g (c, r)) := by
  induction A with
  | nil => cases hm
  | cons q t ih =>
    by_cases hk : q.1 = c
    · rw [List.map_cons,
        show lookupA ((q.1, g q) :: t.map (fun p => (p.1, g p))) c
          = if q.1 = c then some (g q) else lookupA (t.map (fun p => (p.1, g p))) c from rfl,
        if_pos hk]
      have hq : q = (c, r) :=
        huniq q (List.mem_cons_self q t) (c, r) hm (by rw [hk])
      rw [hq]
    · rw [List.map_cons,
        show lookupA ((q.1, g q) :: t.map (fun p => (p.1, g p))) c
          = if q.1 = c then some (g q) else lookupA (t.map (fun p => (p.1, g p))) c from rfl,
        if_neg hk]
      have hmt : (c, r) ∈ t := by
        rcases List.mem_cons.mp hm with h | h
        · rw [← h] at hk
          exact absurd rfl hk
        · exact h
      exact ih (fun p hp q2 hq2 =>
        huniq p (List.mem_cons_of_mem _ hp) q2 (List.mem_cons_of_mem _ hq2)) hmt

/-! ### The accumulation-loop invariant -/

theorem cwcState_inv (features : List (List ℚ)) (labels : List ℕ) :
    ∀ k, k ≤ features.length → CwcInv features labels k (cwcState features labels k) := by
  intro k
  induction k with
  | zero =>
    intro _
    refine ⟨rfl, ?_, ?_, ?_, ?_⟩
    · intro p hp
      cases hp
    · intro c
      constructor
      · rintro ⟨p, hp, -⟩
        cases hp
      · rintro ⟨j, hj, -⟩
        omega
    · intro p hp
      cases hp
    · intro r _
      rfl
  | succ k ih =>
    intro hk1
    have hk : k ≤ features.length := Nat.le_of_succ_le hk1
    obtain ⟨i1, i2, i3, i4, i5⟩ := ih hk
    have huniq := firstocc_unique
      (fun p hp => ⟨(i2 p hp).2.1, (i2 p hp).2.2⟩)
    have hbow : (cwcState features labels k).1.getD k [] = features.getD k [] :=
      i5 k (fun p hp => Nat.ne_of_lt (i2 p hp).1)
    show CwcInv features labels (k + 1) (cwcStep labels (cwcState features labels k) k)
    cases hA : lookupA (cwcState features labels k).2 (labels.getD k 0) with
    | some r =>
      have hstep : cwcStep labels (cwcState features labels k) k =
          ((cwcState features labels k).1.set r
            (vecAdd ((cwcState features labels k).1.getD r [])
              ((cwcState features labels k).1.getD k [])),
           (cwcState features labels k).2) := by
        simp only [cwcStep, hA]
      rw [hstep]
      have hmem : (labels.getD k 0, r) ∈ (cwcState features labels k).2 :=
        lookupA_some_mem hA
      obtain ⟨hrk, hrlab, hrfirst⟩ := i2 _ hmem
      have hrlen : r < (cwcState features labels k).1.length := by
        rw [i1]
        omega
      refine ⟨?_, ?_, ?_, ?_, ?_⟩
      · rw [List.length_set, i1]
      · intro p hp
        exact ⟨Nat.lt_succ_of_lt (i2 p hp).1, (i2 p hp).2.1, (i2 p hp).2.2⟩
      · intro c
        constructor
        · rintro ⟨p, hp, hpc⟩
          obtain ⟨j, hj, he⟩ := (i3 p.1).mp ⟨p, hp, rfl⟩
          exact ⟨j, Nat.lt_succ_of_lt hj, hpc ▸ he⟩
        · rintro ⟨j, hj, he⟩
          by_cases hjk : j < k
          · exact (i3 c).mpr ⟨j, hjk, he⟩
          · have hjeq : j = k := by omega
            subst hjeq
            exact ⟨(labels.getD j 0, r), hmem, he⟩
      · intro p hp
        by_cases hpc : p.1 = labels.getD k 0
        · have hpr : p = (labels.getD k 0, r) :=
            huniq p hp _ hmem (by rw [hpc])
          rw [hpr]
          show ((cwcState features labels k).1.set r _).getD r [] =
            sumRowsL (classRows features labels (labels.getD k 0) (k + 1))
          rw [getD_set_self _ _ _ _ hrlen, hbow, i4 _ hmem, classRows_succ, if_pos rfl,
            sumRowsL_append_singleton _ _
              (classRows_nonempty _ _ _ _ ⟨r, hrk, hrlab⟩)]
        · have hp2r : r ≠ p.2 := by
            intro hecontra
            apply hpc
            rw [← (i2 p hp).2.1, ← hecontra]
            exact hrlab
          show ((cwcState features labels k).1.set r _).getD p.2 [] =
            sumRowsL (classRows features labels p.1 (k + 1))
          rw [getD_set_ne _ _ _ _ _ hp2r, i4 p hp, classRows_succ,
            if_neg (fun hcontra => hpc hcontra.symm)]
      · intro r2 hr2
        have hrne : r ≠ r2 := hr2 _ hmem
        show ((cwcState features labels k).1.set r _).getD r2 [] = features.getD r2 []
        rw [getD_set_ne _ _ _ _ _ hrne, i5 r2 hr2]
    | none =>
      have hnotin := lookupA_none_not_mem hA
      have hfirst : ∀ j < k, labels.getD j 0 ≠ labels.getD k 0 := by
        intro j hj he
        obtain ⟨p, hp, hpc⟩ := (i3 (labels.getD k 0)).mpr ⟨j, hj, he⟩
        exact hnotin p hp hpc
      have hstep : cwcStep labels (cwcState features labels k) k =
          ((cwcState features labels k).1,
           (cwcState features labels k).2 ++ [(labels.getD k 0, k)]) := by
        simp only [cwcStep, hA]
      rw [hstep]
      refine ⟨i1, ?_, ?_, ?_, ?_⟩
      · intro p hp
        rcases List.mem_append.mp hp with h | h
        · exact ⟨Nat.lt_succ_of_lt (i2 p h).1, (i2 p h).2.1, (i2 p h).2.2⟩
        · have hpe := List.mem_singleton.mp h
          subst hpe
          exact ⟨Nat.lt_succ_self k, rfl, hfirst⟩
      · intro c
        constructor
        · rintro ⟨p, hp, hpc⟩
          rcases List.mem_append.mp hp with h | h
          · obtain ⟨j, hj, he⟩ := (i3 c).mp ⟨p, h, hpc⟩
            exact ⟨j, Nat.lt_succ_of_lt hj, he⟩
          · have hpe := List.mem_singleton.mp h
            subst hpe
            exact ⟨k, Nat.lt_succ_self k, hpc⟩
        · rintro ⟨j, hj, he⟩
          by_cases hjk : j < k
          · obtain ⟨p, hp, hpc⟩ := (i3 c).mpr ⟨j, hjk, he⟩
            exact ⟨p, List.mem_append_left _ hp, hpc⟩
          · have hjeq : j = k := by omega
            subst hjeq
            exact ⟨(labels.getD j 0, j),
              List.mem_append_right _ (List.mem_singleton.mpr rfl), he⟩
      · intro p hp
        rcases List.mem_append.mp hp with h | h
        · rw [i4 p h, classRows_succ,
            if_neg (fun hcontra => hnotin p h hcontra.symm)]
        · have hpe := List.mem_singleton.mp h
          subst hpe
          show (cwcState features labels k).1.getD k [] =
            sumRowsL (classRows features labels (labels.getD k 0) (k + 1))
          rw [hbow, classRows_succ, if_pos rfl,
            classRows_nil features labels _ k hfirst, List.nil_append, sumRowsL_singleton]
      · intro r2 hr2
        exact i5 r2 (fun p hp => hr2 p (List.mem_append_left _ hp))

/-! ### The conditional probabilities stored by fit -/

theorem fit_conditional_probabilities_eq (features : List (List ℚ)) (labels : List ℕ)
    (delta : ℚ) :
    (NaiveBayes.fit features labels delta).1.conditional_probabilities =
      some ((cwcState features labels features.length).2.map (fun p =>
        (p.1, ((cwcState features labels features.length).1.getD p.2 []).map
          (fun w => (w + delta) /
            (((cwcState features labels features.length).1.getD p.2 []).sum
              + delta * (((features.headD []).length : ℕ) : ℚ)))))) := rfl

theorem fit_conditionals_lookup (features : List (List ℚ)) (labels : List ℕ) (delta : ℚ)
    (hlen : labels.length = features.length) (c : ℕ) (hc : c ∈ labels) :
    lookupA ((NaiveBayes.fit features labels delta).1.conditional_probabilities.getD []) c =
      some ((Wc features labels c).map (fun w =>
        (w + delta) /
          ((Wc features labels c).sum + delta * (((features.headD []).length : ℕ) : ℚ)))) := by
  obtain ⟨i1, i2, i3, i4, i5⟩ := cwcState_inv features labels features.length (le_refl _)
  have huniq := firstocc_unique (fun p hp => ⟨(i2 p hp).2.1, (i2 p hp).2.2⟩)
  obtain ⟨j, hj, he⟩ := (mem_iff_getD labels).mp hc
  obtain ⟨p, hp, hpc⟩ := (i3 c).mpr ⟨j, hlen ▸ hj, he⟩
  have hpform : p = (c, p.2) := Prod.ext hpc rfl
  rw [hpform] at hp
  have hlk := lookupA_map_of_mem_unique
    (fun p => ((cwcState features labels features.length).1.getD p.2 []).map
      (fun w => (w + delta) /
        (((cwcState features labels features.length).1.getD p.2 []).sum
          + delta * (((features.headD []).length : ℕ) : ℚ)))) huniq hp
  rw [fit_conditional_probabilities_eq, Option.getD_some, hlk]
  have hW := i4 _ hp
  simp only at hW ⊢
  rw [hW]
  rfl

/-! ### Elementwise properties of accumulated word counts -/

theorem mem_zipWith_nonneg : ∀ (a b : List ℚ), (∀ x ∈ a, 0 ≤ x) → (∀ x ∈ b, 0 ≤ x) →
    ∀ x ∈ List.zipWith (fun x y => x + y) a b, 0 ≤ x := by
  intro a
  induction a with
  | nil =>
    intro b _ _ x hx
    cases hx
  | cons u t ih =>
    intro b ha hb x hx
    cases b with
    | nil => cases hx
    | cons v s =>
      rw [List.zipWith_cons_cons] at hx
      rcases List.mem_cons.mp hx with h | h
      · subst h
        exact add_nonneg (ha u (List.mem_cons_self u t)) (hb v (List.mem_cons_self v s))
      · exact ih s (fun y hy => ha y (List.mem_cons_of_mem _ hy))
          (fun y hy => hb y (List.mem_cons_of_mem _ hy)) x h

theorem foldl_vecAdd_ok (V : ℕ) : ∀ (t : List (List ℚ)) (v : List ℚ),
    (v.length = V ∧ ∀ x ∈ v, 0 ≤ x) →
    (∀ row ∈ t, row.length = V ∧ ∀ x ∈ row, 0 ≤ x) →
    (t.foldl vecAdd v).length = V ∧ ∀ x ∈ t.foldl vecAdd v, 0 ≤ x := by
  intro t
  induction t with
  | nil =>
    intro v hv _
    exact hv
  | cons w s ih =>
    intro v hv hrows
    rw [List.foldl_cons]
    refine ih (vecAdd v w) ⟨?_, ?_⟩ (fun row hrow => hrows row (List.mem_cons_of_mem _ hrow))
    · rw [vecAdd, List.length_zipWith, hv.1, (hrows w (List.mem_cons_self w s)).1, min_self]
    · intro x hx
      rw [vecAdd] at hx
      exact mem_zipWith_nonneg v w hv.2 (hrows w (List.mem_cons_self w s)).2 x hx

theorem Wc_ok (features : List (List ℚ)) (labels : List ℕ) (c : ℕ)
    (hnn : ∀ row ∈ features, ∀ x ∈ row, 0 ≤ x)
    (hV : ∀ row ∈ features, row.length = (features.headD []).length)
    (hlen : labels.length = features.length) (hc : c ∈ labels) :
    (Wc features labels c).length = (features.headD []).length ∧
    ∀ x ∈ Wc features labels c, 0 ≤ x := by
  have hrows : ∀ row ∈ classRows features labels c features.length,
      row.length = (features.headD []).length ∧ ∀ x ∈ row, 0 ≤ x := by
    intro row hrow
    unfold classRows at hrow
    obtain ⟨j, hjmem, he⟩ := List.mem_map.mp hrow
    have hjlt : j < features.length := List.mem_range.mp (List.mem_filter.mp hjmem).1
    have hrowmem : features.getD j [] ∈ features := getD_mem features j [] hjlt
    rw [← he]
    exact ⟨hV _ hrowmem, hnn _ hrowmem⟩
  have hne : classRows features labels c features.length ≠ [] := by
    obtain ⟨j, hj, he⟩ := (mem_iff_getD labels).mp hc
    exact classRows_nonempty _ _ _ _ ⟨j, hlen ▸ hj, he⟩
  cases hcr : classRows features labels c features.length with
  | nil => exact absurd hcr hne
  | cons v t =>
    rw [Wc, hcr]
    show (t.foldl vecAdd v).length = _ ∧ ∀ x ∈ t.foldl vecAdd v, 0 ≤ x
    exact foldl_vecAdd_ok _ t v
      (hrows v (by rw [hcr]; exact List.mem_cons_self v t))
      (fun row hrow => hrows row (by rw [hcr]; exact List.mem_cons_of_mem _ hrow))

theorem sum_map_add_const_rat (l : List ℚ) (d : ℚ) :
    (l.map (fun x => x + d)).sum = l.sum + l.length * d := by
  induction l with
  | nil => simp
  | cons a t ih =>
    simp only [List.map_cons, List.sum_cons, ih, List.length_cons]
    push_cast
    ring

/-! ### The posterior loop -/

theorem posteriorsLoop_length (conds : List (ℕ × List ℚ)) (feature : List ℚ) :
    ∀ (priors : List (ℕ × ℚ)) (acc r : List ℝ),
      posteriorsLoop conds feature priors acc = Except.ok r → r.length = acc.length := by
  intro priors
  induction priors with
  | nil =>
    intro acc r h
    rw [posteriorsLoop] at h
    cases h
    rfl
  | cons q t ih =>
    intro acc r h
    obtain ⟨c, p⟩ := q
    rw [posteriorsLoop] at h
    cases hA : lookupA conds c with
    | none =>
      rw [hA] at h
      cases h
    | some condP =>
      rw [hA] at h
      rw [ih _ r h, List.length_set]

theorem posteriorsLoop_spec (conds : List (ℕ × List ℚ)) (feature : List ℚ) :
    ∀ (priors : List (ℕ × ℚ)) (acc : List ℝ),
      (∀ p ∈ priors, (lookupA conds p.1).isSome = true) →
      (priors.map Prod.fst).Nodup →
      ∃ r, posteriorsLoop conds feature priors acc = Except.ok r ∧
        r.length = acc.length ∧
        (∀ c, (∀ p ∈ priors, p.1 ≠ c) → r.getD c 0 = acc.getD c 0) ∧
        (∀ p ∈ priors, p.1 < acc.length → ∀ cv, lookupA conds p.1 = some cv →
          r.getD p.1 0 = Real.log (p.2 : ℝ) +
            (List.zipWith (fun f x => (f : ℝ) * Real.log ((x : ℚ) : ℝ)) feature cv).sum) := by
  intro priors
  induction priors with
  | nil =>
    intro acc _ _
    exact ⟨acc, by rw [posteriorsLoop], rfl, fun c _ => rfl,
      fun p hp => absurd hp (List.not_mem_nil p)⟩
  | cons q t ih =>
    intro acc hlk hnodup
    obtain ⟨c, p⟩ := q
    rw [List.map_cons, List.nodup_cons] at hnodup
    obtain ⟨hcnot, hnodt⟩ := hnodup
    have hcg : (lookupA conds (c, p).1).isSome = true := hlk (c, p) (List.mem_cons_self _ _)
    obtain ⟨cv0, hcv0⟩ := Option.isSome_iff_exists.mp hcg
    obtain ⟨r, hr, hrlen, hrframe, hrent⟩ :=
      ih (acc.set c (Real.log (p : ℝ) +
          (List.zipWith (fun f x => (f : ℝ) * Real.log ((x : ℚ) : ℝ)) feature cv0).sum))
        (fun p2 hp2 => hlk p2 (List.mem_cons_of_mem _ hp2)) hnodt
    have hkeyt : ∀ p2 ∈ t, p2.1 ≠ c := by
      intro p2 hp2 he
      exact hcnot (List.mem_map.mpr ⟨p2, hp2, he⟩)
    refine ⟨r, ?_, ?_, ?_, ?_⟩
    · rw [posteriorsLoop, hcv0]
      exact hr
    · rw [hrlen, List.length_set]
    · intro c2 hc2
      rw [hrframe c2 (fun p2 hp2 => hc2 p2 (List.mem_cons_of_mem _ hp2)),
        getD_set_ne _ _ _ _ _ (hc2 (c, p) (List.mem_cons_self _ _))]
    · intro p2 hp2 hplt cv hcv
      rcases List.mem_cons.mp hp2 with h | h
      · subst h
        rw [hcv0] at hcv
        have hcveq : cv0 = cv := Option.some.inj hcv
        subst hcveq
        rw [hrframe (c, p).1 hkeyt, getD_set_self _ _ _ _ hplt]
      · exact hrent p2 h (by rw [List.length_set]; exact hplt) cv hcv

theorem fit_posteriors_spec (features : List (List ℚ)) (labels : List ℕ) (delta : ℚ)
    (feature : List ℚ) (hlen : labels.length = features.length)
    (hall : ∀ i, i < (bincount labels).length → i ∈ labels) :
    ∃ lp, (NaiveBayes.fit features labels delta).1.estimate_class_posteriors feature
        = Except.ok lp ∧
      lp.length = (bincount labels).length ∧
      ∀ c p cv,
        lookupA ((NaiveBayes.fit features labels delta).1.class_priors.getD []) c = some p →
        lookupA ((NaiveBayes.fit features labels delta).1.conditional_probabilities.getD []) c
          = some cv →
        lp.getD c 0 = Real.log (p : ℝ) +
          (List.zipWith (fun f x => (f : ℝ) * Real.log ((x : ℚ) : ℝ)) feature cv).sum := by
  have hred : (NaiveBayes.fit features labels delta).1.estimate_class_posteriors feature
      = posteriorsLoop
          ((NaiveBayes.fit features labels delta).1.conditional_probabilities.getD []) feature
          ((NaiveBayes.fit features labels delta).1.class_priors.getD [])
          (List.replicate ((NaiveBayes.fit features labels delta).1.class_priors.getD []).length
            0) := rfl
  have hPlen : ((NaiveBayes.fit features labels delta).1.class_priors.getD []).length
      = (bincount labels).length := by
    rw [fit_class_priors_eq, Option.getD_some, List.length_map, List.length_range]
  have hlku : ∀ p ∈ (NaiveBayes.fit features labels delta).1.class_priors.getD [],
      (lookupA ((NaiveBayes.fit features labels delta).1.conditional_probabilities.getD [])
        p.1).isSome = true := by
    intro p hp
    rw [fit_class_priors_eq, Option.getD_some] at hp
    obtain ⟨i, hi, he⟩ := List.mem_map.mp hp
    have hiK : i < (bincount labels).length := List.mem_range.mp hi
    have hp1 : p.1 = i := by rw [← he]
    rw [hp1, fit_conditionals_lookup features labels delta hlen i (hall i hiK)]
    rfl
  have hnd : (((NaiveBayes.fit features labels delta).1.class_priors.getD []).map
      Prod.fst).Nodup := by
    rw [fit_class_priors_eq, Option.getD_some, List.map_map]
    have hc : (Prod.fst ∘ fun i : ℕ =>
        (i, ((bincount labels).getD i 0 : ℚ) / (labels.length : ℚ))) = fun i : ℕ => i := rfl
    rw [hc]
    simpa using List.nodup_range _
  obtain ⟨r, hr, hrlen, hrframe, hrent⟩ := posteriorsLoop_spec
    ((NaiveBayes.fit features labels delta).1.conditional_probabilities.getD []) feature
    ((NaiveBayes.fit features labels delta).1.class_priors.getD [])
    (List.replicate ((NaiveBayes.fit features labels delta).1.class_priors.getD []).length 0)
    hlku hnd
  refine ⟨r, by rw [hred]; exact hr, by rw [hrlen, List.length_replicate, hPlen], ?_⟩
  intro c p cv hp hcv
  have hplk := fit_priors_lookup features labels delta c
  rw [hp] at hplk
  by_cases hcK : c < (bincount labels).length
  · rw [if_pos hcK] at hplk
    have hpval : p = ((bincount labels).getD c 0 : ℚ) / (labels.length : ℚ) :=
      Option.some.inj hplk
    have hmemP : (c, p) ∈ (NaiveBayes.fit features labels delta).1.class_priors.getD [] := by
      rw [fit_class_priors_eq, Option.getD_some]
      exact List.mem_map.mpr ⟨c, List.mem_range.mpr hcK, by rw [hpval]⟩
    exact hrent (c, p) hmemP (by rw [List.length_replicate, hPlen]; exact hcK) cv hcv
  · rw [if_neg hcK] at hplk
    exact absurd hplk (Option.some_ne_none p)

/-! ### torch.argmax properties -/

theorem argmaxFrom_spec : ∀ (xs : List ℝ) (i : ℕ) (b : ℕ × ℝ),
    b.2 ≤ (argmaxFrom xs i b).2 ∧
    (∀ j, j < xs.length → xs.getD j 0 ≤ (argmaxFrom xs i b).2) ∧
    (argmaxFrom xs i b = b ∨
      ∃ j, j < xs.length ∧ (argmaxFrom xs i b).1 = i + j ∧
        (argmaxFrom xs i b).2 = xs.getD j 0 ∧ b.2 < (argmaxFrom xs i b).2 ∧
        ∀ j2, j2 < j → xs.getD j2 0 < (argmaxFrom xs i b).2) := by
  intro xs
  induction xs with
  | nil =>
    intro i b
    exact ⟨le_refl _, fun j hj => absurd hj (by simp), Or.inl rfl⟩
  | cons x t ih =>
    intro i b
    by_cases hx : b.2 < x
    · have hstep : argmaxFrom (x :: t) i b = argmaxFrom t (i + 1) (i, x) := by
        rw [argmaxFrom, if_pos hx]
      obtain ⟨ih1, ih2, ih3⟩ := ih (i + 1) (i, x)
      rw [hstep]
      refine ⟨le_trans (le_of_lt hx) ih1, ?_, ?_⟩
      · intro j hj
        cases j with
        | zero => exact ih1
        | succ j2 => exact ih2 j2 (Nat.lt_of_succ_lt_succ hj)
      · rcases ih3 with h | ⟨j, hjlt, hidx, hval, hgt, hbefore⟩
        · right
          refine ⟨0, by simp, ?_, ?_, ?_, ?_⟩
          · rw [h]
            exact (Nat.add_zero i).symm
          · rw [h]
            rfl
          · rw [h]
            exact hx
          · intro j2 hj2
            exact absurd hj2 (Nat.not_lt_zero j2)
        · right
          refine ⟨j + 1, by simpa using hjlt, by rw [hidx]; omega, hval,
            lt_trans hx hgt, ?_⟩
          intro j2 hj2
          cases j2 with
          | zero => exact hgt
          | succ j3 => exact hbefore j3 (Nat.lt_of_succ_lt_succ hj2)
    · have hstep : argmaxFrom (x :: t) i b = argmaxFrom t (i + 1) b := by
        rw [argmaxFrom, if_neg hx]
      obtain ⟨ih1, ih2, ih3⟩ := ih (i + 1) b
      rw [hstep]
      refine ⟨ih1, ?_, ?_⟩
      · intro j hj
        cases j with
        | zero => exact le_trans (le_of_not_lt hx) ih1
        | succ j2 => exact ih2 j2 (Nat.lt_of_succ_lt_succ hj)
      · rcases ih3 with h | ⟨j, hjlt, hidx, hval, hgt, hbefore⟩
        · exact Or.inl h
        · right
          refine ⟨j + 1, by simpa using hjlt, by rw [hidx]; omega, hval, hgt, ?_⟩
          intro j2 hj2
          cases j2 with
          | zero => exact lt_of_le_of_lt (le_of_not_lt hx) hgt
          | succ j3 => exact hbefore j3 (Nat.lt_of_succ_lt_succ hj2)

theorem argmaxIdx_spec (l : List ℝ) (hne : l ≠ []) :
    argmaxIdx l < l.length ∧
    (∀ i, i < l.length → l.getD i 0 ≤ l.getD (argmaxIdx l) 0) ∧
    (∀ i, i < argmaxIdx l → l.getD i 0 < l.getD (argmaxIdx l) 0) := by
  cases l with
  | nil => exact absurd rfl hne
  | cons x t =>
    obtain ⟨h1, h2, h3⟩ := argmaxFrom_spec t 1 (0, x)
    rcases h3 with h | ⟨j, hjlt, hidx, hval, hgt, hbefore⟩
    · have hidx0 : argmaxIdx (x :: t) = 0 := by rw [argmaxIdx, h]
      rw [hidx0]
      refine ⟨by simp, ?_, ?_⟩
      · intro i hi
        cases i with
        | zero => exact le_refl _
        | succ i2 =>
          have hle := h2 i2 (Nat.lt_of_succ_lt_succ hi)
          rw [h] at hle
          exact hle
      · intro i hi
        exact absurd hi (Nat.not_lt_zero i)
    · have hidx1 : argmaxIdx (x :: t) = 1 + j := by rw [argmaxIdx, hidx]
      have hgetc : (x :: t).getD (argmaxIdx (x :: t)) 0 = (argmaxFrom t 1 (0, x)).2 := by
        rw [hidx1, hval, Nat.add_comm]
        rfl
      refine ⟨?_, ?_, ?_⟩
      · rw [hidx1]
        simp only [List.length_cons]
        omega
      · intro i hi
        rw [hgetc]
        cases i with
        | zero => exact le_of_lt hgt
        | succ i2 => exact h2 i2 (Nat.lt_of_succ_lt_succ hi)
      · intro i hi
        rw [hgetc]
        rw [hidx1] at hi
        cases i with
        | zero => exact hgt
        | succ i2 => exact hbefore i2 (by omega)

theorem argmaxIdx_pair_of_lt (a b : ℝ) (h : b < a) : argmaxIdx [a, b] = 0 := by
  rw [argmaxIdx, argmaxFrom, if_neg (not_lt.mpr (le_of_lt h))]
  rfl

/-! ### softmax properties -/

theorem argmaxFrom_map_mono (g : ℝ → ℝ) (hg : StrictMono g) :
    ∀ (xs : List ℝ) (i : ℕ) (b : ℕ × ℝ),
      argmaxFrom (xs.map g) i (b.1, g b.2) =
        ((argmaxFrom xs i b).1, g (argmaxFrom xs i b).2) := by
  intro xs
  induction xs with
  | nil =>
    intro i b
    rfl
  | cons x t ih =>
    intro i b
    rw [List.map_cons, argmaxFrom, argmaxFrom]
    by_cases hx : b.2 < x
    · rw [if_pos (show (b.1, g b.2).2 < g x from hg hx), if_pos hx]
      exact ih (i + 1) (i, x)
    · rw [if_neg (show ¬(b.1, g b.2).2 < g x from fun hcon => hx (hg.lt_iff_lt.mp hcon)),
        if_neg hx]
      exact ih (i + 1) b

theorem argmaxIdx_map_mono (g : ℝ → ℝ) (hg : StrictMono g) (l : List ℝ) :
    argmaxIdx (l.map g) = argmaxIdx l := by
  cases l with
  | nil => rfl
  | cons x t =>
    rw [List.map_cons, argmaxIdx, argmaxIdx,
      show ((0 : ℕ), g x) = (((0, x) : ℕ × ℝ).1, g ((0, x) : ℕ × ℝ).2) from rfl,
      argmaxFrom_map_mono g hg t 1 (0, x)]

theorem exp_sum_pos (l : List ℝ) (hne : l ≠ []) : 0 < (l.map Real.exp).sum := by
  cases l with
  | nil => exact absurd rfl hne
  | cons x t =>
    rw [List.map_cons, List.sum_cons]
    have h1 : 0 ≤ (t.map Real.exp).sum :=
      List.sum_nonneg (fun y hy => by
        obtain ⟨a, _, ha⟩ := List.mem_map.mp hy
        rw [← ha]
        exact le_of_lt (Real.exp_pos a))
    have h2 := Real.exp_pos x
    linarith

theorem argmaxIdx_softmax (l : List ℝ) : argmaxIdx (softmax l) = argmaxIdx l := by
  cases l with
  | nil => rfl
  | cons x t =>
    have hs := exp_sum_pos (x :: t) (by simp)
    have hmono : StrictMono (fun y : ℝ => Real.exp y / ((x :: t).map Real.exp).sum) := by
      intro a b hab
      exact (div_lt_div_iff_of_pos_right hs).mpr (Real.exp_lt_exp.mpr hab)
    show argmaxIdx ((x :: t).map
      (fun y => Real.exp y / ((x :: t).map Real.exp).sum)) = argmaxIdx (x :: t)
    exact argmaxIdx_map_mono _ hmono (x :: t)

theorem softmax_sum (l : List ℝ) (hne : l ≠ []) : (softmax l).sum = 1 := by
  have hs := exp_sum_pos l hne
  rw [softmax,
    show (fun x => Real.exp x / (l.map Real.exp).sum)
      = (fun y : ℝ => y / (l.map Real.exp).sum) ∘ Real.exp from rfl,
    ← List.map_map, sum_map_div, div_self (ne_of_gt hs)]

theorem softmax_mem_bounds (l : List ℝ) (hne : l ≠ []) :
    ∀ y ∈ softmax l, 0 ≤ y ∧ y ≤ 1 := by
  have hs := exp_sum_pos l hne
  intro y hy
  rw [softmax] at hy
  obtain ⟨a, ha, hay⟩ := List.mem_map.mp hy
  rw [← hay]
  constructor
  · exact div_nonneg (le_of_lt (Real.exp_pos a)) (le_of_lt hs)
  · rw [div_le_one hs]
    refine List.single_le_sum (fun z hz => ?_) _ (List.mem_map_of_mem Real.exp ha)
    obtain ⟨w, _, hw⟩ := List.mem_map.mp hz
    rw [← hw]
    exact le_of_lt (Real.exp_pos w)

/-! ### The concrete scenario of the specification -/

theorem model0_priors_lookup0 :
    lookupA (model0.class_priors.getD []) 0 = some (2 / 3) := by
  norm_num [model0, NaiveBayes.fit, bincount, lookupA, labels0, features0, List.range_succ]

theorem model0_priors_lookup1 :
    lookupA (model0.class_priors.getD []) 1 = some (1 / 3) := by
  norm_num [model0, NaiveBayes.fit, bincount, lookupA, labels0, features0, List.range_succ]

theorem model0_conds_lookup0 :
    lookupA (model0.conditional_probabilities.getD []) 0 = some [2/7, 2/7, 3/7] := by
  norm_num [model0, NaiveBayes.fit, estimate_conditional_probabilities, cwcState, cwcStep,
    lookupA, bincount, vecAdd, features0, labels0, List.range_succ]

theorem model0_conds_lookup1 :
    lookupA (model0.conditional_probabilities.getD []) 1 = some [2/5, 2/5, 1/5] := by
  norm_num [model0, NaiveBayes.fit, estimate_conditional_probabilities, cwcState, cwcStep,
    lookupA, bincount, vecAdd, features0, labels0, List.range_succ]

theorem model0_posteriors :
    ∃ a b, model0.estimate_class_posteriors feat0 = Except.ok [a, b] ∧
      a = Real.log ((2 / 3 : ℚ) : ℝ) +
        (List.zipWith (fun f x => (f : ℝ) * Real.log ((x : ℚ) : ℝ)) feat0
          [2/7, 2/7, 3/7]).sum ∧
      b = Real.log ((1 / 3 : ℚ) : ℝ) +
        (List.zipWith (fun f x => (f : ℝ) * Real.log ((x : ℚ) : ℝ)) feat0
          [2/5, 2/5, 1/5]).sum := by
  obtain ⟨lp, hok, hlen, hent⟩ := fit_posteriors_spec features0 labels0 1 feat0 (by decide)
    (by decide)
  have hlp2 : lp.length = 2 := by
    rw [hlen]
    decide
  have ha := hent 0 (2/3) [2/7, 2/7, 3/7] model0_priors_lookup0 model0_conds_lookup0
  have hb := hent 1 (1/3) [2/5, 2/5, 1/5] model0_priors_lookup1 model0_conds_lookup1
  refine ⟨lp.getD 0 0, lp.getD 1 0, ?_, ha, hb⟩
  rw [← list_eq_pair lp hlp2]
  exact hok

theorem model0_b_lt_a :
    Real.log ((1 / 3 : ℚ) : ℝ) +
      (List.zipWith (fun f x => (f : ℝ) * Real.log ((x : ℚ) : ℝ)) feat0
        [2/5, 2/5, 1/5]).sum
    < Real.log ((2 / 3 : ℚ) : ℝ) +
      (List.zipWith (fun f x => (f : ℝ) * Real.log ((x : ℚ) : ℝ)) feat0
        [2/7, 2/7, 3/7]).sum := by
  show Real.log ((1 / 3 : ℚ) : ℝ) +
      (((1 : ℚ) : ℝ) * Real.log ((2/5 : ℚ) : ℝ)
        + (((1 : ℚ) : ℝ) * Real.log ((2/5 : ℚ) : ℝ)
        + (((0 : ℚ) : ℝ) * Real.log ((1/5 : ℚ) : ℝ) + 0)))
    < Real.log ((2 / 3 : ℚ) : ℝ) +
      (((1 : ℚ) : ℝ) * Real.log ((2/7 : ℚ) : ℝ)
        + (((1 : ℚ) : ℝ) * Real.log ((2/7 : ℚ) : ℝ)
        + (((0 : ℚ) : ℝ) * Real.log ((3/7 : ℚ) : ℝ) + 0)))
  push_cast
  have e1 : Real.log ((1:ℝ)/3) + (Real.log ((2:ℝ)/5) + Real.log ((2:ℝ)/5))
      = Real.log ((1:ℝ)/3 * (2/5 * (2/5))) := by
    rw [Real.log_mul (by norm_num) (by norm_num), Real.log_mul (by norm_num) (by norm_num)]
  have e2 : Real.log ((2:ℝ)/3) + (Real.log ((2:ℝ)/7) + Real.log ((2:ℝ)/7))
      = Real.log ((2:ℝ)/3 * (2/7 * (2/7))) := by
    rw [Real.log_mul (by norm_num) (by norm_num), Real.log_mul (by norm_num) (by norm_num)]
  have h1 : Real.log ((1:ℝ)/3) + (Real.log ((2:ℝ)/5) + Real.log ((2:ℝ)/5))
      < Real.log ((2:ℝ)/3) + (Real.log ((2:ℝ)/7) + Real.log ((2:ℝ)/7)) := by
    rw [e1, e2]
    apply Real.log_lt_log
    · norm_num
    · norm_num
  linarith [h1]

theorem model0_predict : model0.predict feat0 = Except.ok 0 := by
  obtain ⟨a, b, hok, ha, hb⟩ := model0_posteriors
  have hba : b < a := by
    rw [ha, hb]
    exact model0_b_lt_a
  have hguard : (!truthy model0.class_priors || !truthy model0.conditional_probabilities)
      = false := by decide
  rw [NaiveBayes.predict, hguard]
  show (match model0.estimate_class_posteriors feat0 with
    | Except.error e => Except.error e
    | Except.ok lp => Except.ok (argmaxIdx lp)) = Except.ok 0
  rw [hok]
  show Except.ok (argmaxIdx [a, b]) = Except.ok 0
  rw [argmaxIdx_pair_of_lt a b hba]

theorem model0_proba :
    ∃ a b, model0.estimate_class_posteriors feat0 = Except.ok [a, b] ∧ b < a ∧
      model0.predict_proba feat0 = Except.ok (softmax [a, b]) := by
  obtain ⟨a, b, hok, ha, hb⟩ := model0_posteriors
  have hba : b < a := by
    rw [ha, hb]
    exact model0_b_lt_a
  have hguard : (!truthy model0.class_priors || !truthy model0.conditional_probabilities)
      = false := by decide
  refine ⟨a, b, hok, hba, ?_⟩
  rw [NaiveBayes.predict_proba, hguard]
  show (match model0.estimate_class_posteriors feat0 with
    | Except.error e => Except.error e
    | Except.ok lp => Except.ok (softmax lp)) = Except.ok (softmax [a, b])
  rw [hok]

/-! ### Remaining helper lemmas -/

theorem lookupA_map_self_isSome {β : Type} (g : ℕ → β) :
    ∀ (L : List ℕ) (c : ℕ),
      (lookupA (L.map (fun x => (x, g x))) c).isSome = true ↔ c ∈ L := by
  intro L
  induction L with
  | nil =>
    intro c
    simp [lookupA]
  | cons a t ih =>
    intro c
    by_cases h : a = c
    · subst h
      rw [List.map_cons,
        show lookupA ((a, g a) :: t.map (fun x => (x, g x))) a
          = if a = a then some (g a) else lookupA (t.map (fun x => (x, g x))) a from rfl,
        if_pos rfl]
      simp
    · rw [List.map_cons,
        show lookupA ((a, g a) :: t.map (fun x => (x, g x))) c
          = if a = c then some (g a) else lookupA (t.map (fun x => (x, g x))) c from rfl,
        if_neg h, ih c]
      constructor
      · exact fun hm => List.mem_cons_of_mem a hm
      · intro hm
        rcases List.mem_cons.mp hm with h2 | h2
        · exact absurd h2.symm h
        · exact h2

theorem mem_torchUnique (labels : List ℕ) (c : ℕ) : c ∈ torchUnique labels ↔ c ∈ labels := by
  rw [torchUnique]
  constructor
  · intro h
    have hmem := List.mem_filter.mp h
    simpa using hmem.2
  · intro h
    refine List.mem_filter.mpr ⟨?_, by simpa using h⟩
    exact List.mem_range.mpr (Nat.lt_succ_of_le (le_foldr_max labels c h))

theorem estimate_posteriors_ok_nonempty (m : NaiveBayes) (feature : List ℚ) (lp : List ℝ)
    (hq : m.estimate_class_posteriors feature = Except.ok lp)
    (hpr : truthy m.class_priors = true) : lp ≠ [] := by
  cases hcp : m.class_priors with
  | none =>
    rw [hcp] at hpr
    simp [truthy] at hpr
  | some pl =>
    cases hcc : m.conditional_probabilities with
    | none =>
      have hq2 : (match m.conditional_probabilities, m.class_priors with
          | some conds, some priors =>
              posteriorsLoop conds feature priors (List.replicate priors.length 0)
          | _, _ =>
              Except.error "Model must be trained before estimating class posteriors.")
          = Except.ok lp := hq
      rw [hcp, hcc] at hq2
      exact Except.noConfusion hq2
    | some conds =>
      have hq2 : (match m.conditional_probabilities, m.class_priors with
          | some conds, some priors =>
              posteriorsLoop conds feature priors (List.replicate priors.length 0)
          | _, _ =>
              Except.error "Model must be trained before estimating class posteriors.")
          = Except.ok lp := hq
      rw [hcp, hcc] at hq2
      have hlen := posteriorsLoop_length conds feature pl (List.replicate pl.length 0) lp hq2
      rw [List.length_replicate] at hlen
      intro hnil
      rw [hnil] at hlen
      rw [hcp] at hpr
      cases pl with
      | nil => simp [truthy] at hpr
      | cons q t => simp at hlen

/-! ### Claim theorems -/

/-- Claim C1: for every training set and delta, fit stores, for each class c
present in labels, the conditional probability vector whose j-th entry is
(W_c[j] + delta) / (total_words(c) + delta * vocab_size), where W_c is the
elementwise sum of the feature rows labelled c, total_words(c) the sum of its
entries, and vocab_size the column count of the features matrix. -/
theorem C1_fit_stores_smoothed_conditionals (features : List (List ℚ)) (labels : List ℕ)
    (delta : ℚ) (hlen : labels.length = features.length) (c : ℕ) (hc : c ∈ labels) :
    lookupA ((NaiveBayes.fit features labels delta).1.conditional_probabilities.getD []) c =
      some ((Wc features labels c).map (fun w =>
        (w + delta) /
          ((Wc features labels c).sum + delta * (((features.headD []).length : ℕ) : ℚ)))) :=
  fit_conditionals_lookup features labels delta hlen c hc

/-- Witness for C1 on the concrete scenario of the specification: conditionals
[2/7, 2/7, 3/7] for class 0 and [2/5, 2/5, 1/5] for class 1. -/
theorem C1_fit_stores_smoothed_conditionals_witness :
    lookupA ((NaiveBayes.fit features0 labels0 1).1.conditional_probabilities.getD []) 0
      = some [2/7, 2/7, 3/7] ∧
    lookupA ((NaiveBayes.fit features0 labels0 1).1.conditional_probabilities.getD []) 1
      = some [2/5, 2/5, 1/5] :=
  ⟨(C1_fit_stores_smoothed_conditionals features0 labels0 1 (by decide) 0 (by decide)).trans
      (by norm_num [Wc, classRows, sumRowsL, vecAdd, features0, labels0, List.range_succ]),
   (C1_fit_stores_smoothed_conditionals features0 labels0 1 (by decide) 1 (by decide)).trans
      (by norm_num [Wc, classRows, sumRowsL, vecAdd, features0, labels0, List.range_succ])⟩

/-- Counterexample to claim C2 as stated: fitting on labels = [1] leaves class 0
with a prior entry but no conditional entry, so estimate_class_posteriors fails
with a KeyError instead of returning the vector of log-posteriors. -/
theorem C2_missing_class_keyerror :
    (NaiveBayes.fit [[1]] [1] 1).1.estimate_class_posteriors [1]
      = Except.error "KeyError" := rfl

/-- Claim C2 (amended): for every model fitted on labels in which every class id
below the bincount length occurs, estimate_class_posteriors returns the vector
indexed by class id whose entry for class c equals
log(prior(c)) + Σ_j feature[j] * log(conditional(c)[j]). -/
theorem C2_posteriors_formula (features : List (List ℚ)) (labels : List ℕ) (delta : ℚ)
    (feature : List ℚ) (hlen : labels.length = features.length)
    (hall : ∀ i, i < (bincount labels).length → i ∈ labels) :
    ∃ lp, (NaiveBayes.fit features labels delta).1.estimate_class_posteriors feature
        = Except.ok lp ∧
      lp.length = (bincount labels).length ∧
      ∀ c p cv,
        lookupA ((NaiveBayes.fit features labels delta).1.class_priors.getD []) c = some p →
        lookupA ((NaiveBayes.fit features labels delta).1.conditional_probabilities.getD []) c
          = some cv →
        lp.getD c 0 = Real.log (p : ℝ) +
          (List.zipWith (fun f x => (f : ℝ) * Real.log ((x : ℚ) : ℝ)) feature cv).sum :=
  fit_posteriors_spec features labels delta feature hlen hall

/-- Witness for C2 (amended) on the concrete scenario: the call returns a value. -/
theorem C2_posteriors_formula_witness :
    ((NaiveBayes.fit features0 labels0 1).1.estimate_class_posteriors feat0).toOption.isSome
      = true := by
  obtain ⟨lp, hok, -, -⟩ :=
    C2_posteriors_formula features0 labels0 1 feat0 (by decide) (by decide)
  rw [hok]
  rfl

/-- Claim C3: each inference method invoked on a classifier on which fit was
never called returns the corresponding "not trained" error. -/
theorem C3_untrained_inference_errors (feature : List ℚ) :
    NaiveBayes.init.estimate_class_posteriors feature
      = Except.error "Model must be trained before estimating class posteriors." ∧
    NaiveBayes.init.predict feature
      = Except.error "Model not trained. Please call the train method first." ∧
    NaiveBayes.init.predict_proba feature
      = Except.error "Model not trained. Please call the train method first." :=
  ⟨rfl, rfl, rfl⟩

/-- Claim C4: whenever predict and predict_proba both return on the same model
and feature, the class id returned by predict is the index of the (first)
maximal entry of the probability vector returned by predict_proba. -/
theorem C4_predict_matches_argmax_of_proba (m : NaiveBayes) (feature : List ℚ) (c : ℕ)
    (v : List ℝ) (h1 : m.predict feature = Except.ok c)
    (h2 : m.predict_proba feature = Except.ok v) :
    c = argmaxIdx v := by
  rw [NaiveBayes.predict] at h1
  rw [NaiveBayes.predict_proba] at h2
  cases hg : (!truthy m.class_priors || !truthy m.conditional_probabilities) with
  | true =>
    rw [hg, if_pos rfl] at h1
    exact Except.noConfusion h1
  | false =>
    rw [hg, if_neg Bool.false_ne_true] at h1 h2
    cases hq : m.estimate_class_posteriors feature with
    | error e =>
      rw [hq] at h1
      exact Except.noConfusion h1
    | ok lp =>
      rw [hq] at h1 h2
      have hc := Except.ok.inj h1
      have hv := Except.ok.inj h2
      rw [← hc, ← hv, argmaxIdx_softmax]

/-- Witness for C4 on the concrete scenario: predict returns class 0 and the
probability vector attains its maximum first at index 0. -/
theorem C4_predict_matches_argmax_of_proba_witness :
    model0.predict feat0 = Except.ok 0 ∧
    argmaxIdx ((model0.predict_proba feat0).toOption.getD []) = 0 := by
  obtain ⟨a, b, hok, hba, hpp⟩ := model0_proba
  refine ⟨model0_predict, ?_⟩
  rw [hpp]
  exact (C4_predict_matches_argmax_of_proba model0 feat0 0 (softmax [a, b])
    model0_predict hpp).symm

/-- Counterexample to claim C5 as stated: after fitting on labels = [1, 1],
class id 0 occurs nowhere in the labels and yet the stored priors mapping has a
key 0 carrying a zero-probability entry. -/
theorem C5_zero_count_class_present :
    lookupA ((NaiveBayes.fit [[1], [1]] [1, 1] 1).1.class_priors.getD []) 0 = some 0 ∧
    (0 : ℕ) ∉ ([1, 1] : List ℕ) := by
  constructor
  · norm_num [NaiveBayes.fit, bincount, lookupA, List.range_succ]
  · decide

/-- Claim C5 (amended): after fit the stored priors mapping has a key for every
class id below the bincount length (0..max(labels)), zero-occurrence ids
included with a zero prior, while the standalone estimate_class_priors method
(which fit does not use) has keys exactly for the observed classes. -/
theorem C5_priors_keys (features : List (List ℚ)) (labels : List ℕ) (delta : ℚ) :
    (∀ c, (lookupA ((NaiveBayes.fit features labels delta).1.class_priors.getD []) c).isSome
        = true ↔ c < (bincount labels).length) ∧
    (∀ c, c < (bincount labels).length → labels.count c = 0 →
      lookupA ((NaiveBayes.fit features labels delta).1.class_priors.getD []) c = some 0) ∧
    (∀ c, (lookupA (NaiveBayes.estimate_class_priors labels) c).isSome = true ↔
      c ∈ labels) := by
  refine ⟨?_, ?_, ?_⟩
  · intro c
    rw [fit_priors_lookup]
    by_cases h : c < (bincount labels).length
    · simp [h]
    · simp [h]
  · intro c hc hcount
    rw [fit_priors_lookup, if_pos hc, bincount_getD labels c hc, hcount]
    norm_num
  · intro c
    rw [NaiveBayes.estimate_class_priors,
      lookupA_map_self_isSome (fun c => (labels.count c : ℚ) / (labels.length : ℚ))
        (torchUnique labels) c]
    exact mem_torchUnique labels c

/-- Witness for C5 (amended): the zero-count class 0 is present with prior 0. -/
theorem C5_priors_keys_witness :
    lookupA ((NaiveBayes.fit [[1], [1]] [1, 1] 1).1.class_priors.getD []) 0 = some 0 :=
  (C5_priors_keys [[1], [1]] [1, 1] 1).2.1 0 (by decide) (by decide)

/-- Claim C6: for every nonempty label vector, after fit the stored prior of
every observed class equals count/total and the stored priors sum to exactly 1,
hence lie within the 1e-6 tolerance of 1. -/
theorem C6_fit_priors_frequencies_sum_one (features : List (List ℚ)) (labels : List ℕ)
    (delta : ℚ) (hne : labels ≠ []) :
    (∀ c ∈ labels,
      lookupA ((NaiveBayes.fit features labels delta).1.class_priors.getD []) c
        = some ((labels.count c : ℚ) / (labels.length : ℚ))) ∧
    (((NaiveBayes.fit features labels delta).1.class_priors.getD []).map
        (fun p => p.2)).sum = 1 ∧
    |(((NaiveBayes.fit features labels delta).1.class_priors.getD []).map
        (fun p => p.2)).sum - 1| ≤ 1 / 1000000 := by
  have hsum := fit_priors_sum features labels delta hne
  refine ⟨?_, hsum, by rw [hsum]; norm_num⟩
  intro c hc
  have hcK := mem_lt_bincount_length labels c hc
  rw [fit_priors_lookup, if_pos hcK, bincount_getD labels c hcK]

/-- Witness for C6 on the concrete scenario: prior(0) = 2/3 and the priors sum
to 1. -/
theorem C6_fit_priors_frequencies_sum_one_witness :
    lookupA ((NaiveBayes.fit features0 labels0 1).1.class_priors.getD []) 0 = some (2 / 3) ∧
    (((NaiveBayes.fit features0 labels0 1).1.class_priors.getD []).map
        (fun p => p.2)).sum = 1 := by
  have h := C6_fit_priors_frequencies_sum_one features0 labels0 1 (by decide)
  refine ⟨(h.1 0 (by decide)).trans ?_, h.2.1⟩
  norm_num [labels0]

/-- Claim C7: for every training set of nonnegative rectangular features over a
nonempty vocabulary, every class with at least one example and every
delta > 0, the stored conditional vector sums to exactly 1 (hence within the
floating tolerance) and every entry is strictly positive. -/
theorem C7_conditionals_distribution (features : List (List ℚ)) (labels : List ℕ)
    (delta : ℚ) (c : ℕ) (hlen : labels.length = features.length) (hc : c ∈ labels)
    (hd : 0 < delta)
    (hnn : ∀ row ∈ features, ∀ x ∈ row, 0 ≤ x)
    (hV : ∀ row ∈ features, row.length = (features.headD []).length)
    (hVpos : 0 < (features.headD []).length) :
    ∃ v, lookupA ((NaiveBayes.fit features labels delta).1.conditional_probabilities.getD [])
        c = some v ∧ v.sum = 1 ∧ ∀ x ∈ v, 0 < x := by
  obtain ⟨hWlen, hWnn⟩ := Wc_ok features labels c hnn hV hlen hc
  have hWsum : 0 ≤ (Wc features labels c).sum := List.sum_nonneg hWnn
  have hD : 0 < (Wc features labels c).sum
      + delta * (((features.headD []).length : ℕ) : ℚ) := by
    have hdv : (0 : ℚ) < delta * (((features.headD []).length : ℕ) : ℚ) :=
      mul_pos hd (by exact_mod_cast hVpos)
    linarith
  refine ⟨_, fit_conditionals_lookup features labels delta hlen c hc, ?_, ?_⟩
  · rw [show (fun w : ℚ => (w + delta) / ((Wc features labels c).sum
        + delta * (((features.headD []).length : ℕ) : ℚ)))
      = (fun y : ℚ => y / ((Wc features labels c).sum
        + delta * (((features.headD []).length : ℕ) : ℚ))) ∘ (fun w => w + delta) from rfl,
      ← List.map_map, sum_map_div, sum_map_add_const_rat, hWlen,
      div_eq_one_iff_eq (ne_of_gt hD)]
    ring
  · intro x hx
    obtain ⟨w, hw, hwx⟩ := List.mem_map.mp hx
    rw [← hwx]
    exact div_pos (by linarith [hWnn w hw]) hD

/-- Witness for C7 on the concrete scenario: the class-0 conditional vector
sums to 1. -/
theorem C7_conditionals_distribution_witness :
    ((lookupA ((NaiveBayes.fit features0 labels0 1).1.conditional_probabilities.getD []) 0
      ).getD []).sum = 1 := by
  obtain ⟨v, hv, hsum, -⟩ := C7_conditionals_distribution features0 labels0 1 0 (by decide)
    (by decide) (by norm_num) (by decide) (by decide) (by decide)
  rw [hv]
  exact hsum

/-- Claim C8: whenever predict_proba returns a vector, every entry lies in
[0, 1] and the entries sum to 1, hence within the 1e-6 tolerance. -/
theorem C8_proba_is_distribution (m : NaiveBayes) (feature : List ℚ) (v : List ℝ)
    (h : m.predict_proba feature = Except.ok v) :
    (∀ y ∈ v, 0 ≤ y ∧ y ≤ 1) ∧ |v.sum - 1| ≤ 1 / 1000000 := by
  rw [NaiveBayes.predict_proba] at h
  cases hg : (!truthy m.class_priors || !truthy m.conditional_probabilities) with
  | true =>
    rw [hg, if_pos rfl] at h
    exact Except.noConfusion h
  | false =>
    rw [hg, if_neg Bool.false_ne_true] at h
    cases hq : m.estimate_class_posteriors feature with
    | error e =>
      rw [hq] at h
      exact Except.noConfusion h
    | ok lp =>
      rw [hq] at h
      have hv := Except.ok.inj h
      have hpr : truthy m.class_priors = true := by
        cases htr : truthy m.class_priors
        · rw [htr] at hg
          simp at hg
        · rfl
      have hlpne : lp ≠ [] := estimate_posteriors_ok_nonempty m feature lp hq hpr
      rw [← hv]
      exact ⟨softmax_mem_bounds lp hlpne, by rw [softmax_sum lp hlpne]; norm_num⟩

/-- Witness for C8 on the concrete scenario: the returned probabilities sum to
1 within the tolerance. -/
theorem C8_proba_is_distribution_witness :
    |((model0.predict_proba feat0).toOption.getD []).sum - 1| ≤ 1 / 1000000 := by
  obtain ⟨a, b, hok, hba, hpp⟩ := model0_proba
  have h8 := C8_proba_is_distribution model0 feat0 (softmax [a, b]) hpp
  rw [hpp]
  exact h8.2

/-- Claim C9: whenever predict returns a class id, that class attains the
maximal log-posterior, every class with a smaller id has a strictly smaller
log-posterior (so with ties the first class in ascending id order is
returned), and predict is deterministic: two calls with the same feature and
fitted state agree. -/
theorem C9_predict_tie_break_first (m : NaiveBayes) (feature : List ℚ) (c : ℕ) (lp : List ℝ)
    (h1 : m.predict feature = Except.ok c)
    (h2 : m.estimate_class_posteriors feature = Except.ok lp) :
    c < lp.length ∧
    (∀ i, i < lp.length → lp.getD i 0 ≤ lp.getD c 0) ∧
    (∀ i, i < c → lp.getD i 0 < lp.getD c 0) ∧
    m.predict feature = m.predict feature := by
  rw [NaiveBayes.predict] at h1
  cases hg : (!truthy m.class_priors || !truthy m.conditional_probabilities) with
  | true =>
    rw [hg, if_pos rfl] at h1
    exact Except.noConfusion h1
  | false =>
    rw [hg, if_neg Bool.false_ne_true] at h1
    rw [h2] at h1
    have hc := Except.ok.inj h1
    have hpr : truthy m.class_priors = true := by
      cases htr : truthy m.class_priors
      · rw [htr] at hg
        simp at hg
      · rfl
    have hlpne : lp ≠ [] := estimate_posteriors_ok_nonempty m feature lp h2 hpr
    obtain ⟨s1, s2, s3⟩ := argmaxIdx_spec lp hlpne
    rw [← hc]
    exact ⟨s1, s2, s3, rfl⟩

/-- Witness for C9 on the concrete scenario: predict returns class 0 and the
log-posterior of class 1 does not exceed that of class 0. -/
theorem C9_predict_tie_break_first_witness :
    model0.predict feat0 = Except.ok 0 ∧
    ((model0.estimate_class_posteriors feat0).toOption.getD []).getD 1 0
      ≤ ((model0.estimate_class_posteriors feat0).toOption.getD []).getD 0 0 := by
  obtain ⟨a, b, hok, hba, -⟩ := model0_proba
  have h9 := C9_predict_tie_break_first model0 feat0 0 [a, b] model0_predict hok
  refine ⟨model0_predict, ?_⟩
  rw [hok]
  exact h9.2.1 1 (by simp)

/-- Claim C10 is violated by the code (a bug): fit mutates the caller's
features matrix through the aliased accumulator rows. On the concrete
scenario, after fit the first row of the features matrix holds the class-0
word-count sum [1, 1, 2] instead of its original contents [1, 0, 1]. -/
theorem C10_fit_mutates_features :
    (NaiveBayes.fit features0 labels0 1).2 = [[1, 1, 2], [0, 1, 1], [1, 1, 0]] ∧
    (NaiveBayes.fit features0 labels0 1).2 ≠ features0 := by
  have h1 : (NaiveBayes.fit features0 labels0 1).2
      = [[1, 1, 2], [0, 1, 1], [1, 1, 0]] := by
    norm_num [NaiveBayes.fit, estimate_conditional_probabilities, cwcState, cwcStep,
      lookupA, bincount, vecAdd, features0, labels0, List.range_succ]
  refine ⟨h1, ?_⟩
  rw [h1, features0]
  intro hcontra
  norm_num at hcontra
